import Mathlib

/-!
Verification of the expression-evaluation core of the Calculatorv01
repository (src/js/modules/CalculatorEngine.js and the near-duplicate
pipeline in script.js).

Numbers are modelled by `ℚ`.  The JavaScript engine computes with IEEE-754
doubles; binary floating-point rounding is not modelled here, so every
arithmetic step is exact.  The engine's final result formatting
(`Number.isInteger(r) ? r : parseFloat(r.toFixed(8))`) is modelled by
`formatResult` below (integers unchanged, otherwise rounding to 8 fractional
digits, ties rounded up).

Strings are modelled as `List Char` (with a `String` entry point
`CalculatorEngine.calculate` mirroring `calculate(expression)`).
-/

-- The Batteries rational operations are `@[irreducible]`; re-allow unfolding
-- so that concrete runs of the evaluator can be checked by `decide`.
attribute [local semireducible] Rat.add Rat.mul Rat.inv Rat.sub

/-- Whitespace characters removed by `expression.replace(/\s+/g, '')`. -/
def isWsChar (c : Char) : Bool :=
  c == ' ' || c == '\t' || c == '\n' || c == '\r'

/-- Model of `expression.replace(/\s+/g, '')`: delete every whitespace char. -/
def stripWhitespace (cs : List Char) : List Char :=
  cs.filter (fun c => !isWsChar c)

/-- The character class `[0-9+\-*/.()]` of the validation regex. -/
def isAllowedChar (c : Char) : Bool :=
  c.isDigit || c == '+' || c == '-' || c == '*' || c == '/' ||
    c == '.' || c == '(' || c == ')'

/-- Model of `/^[0-9+\-*\/.()]+$/.test(expression)`: at least one character,
all of them in the allowed class. -/
def validChars (cs : List Char) : Bool :=
  !cs.isEmpty && cs.all isAllowedChar

/-- The single-character alternative `[+\-*/()]` of the token regex. -/
def isOpPar (c : Char) : Bool :=
  c == '+' || c == '-' || c == '*' || c == '/' || c == '(' || c == ')'

/-- One greedy match of the alternative `\d*\.?\d+` at the start of `cs`
(backtracking semantics of the JavaScript regex): the longest prefix made of
digits, an optional decimal point and at least one further digit, ending in
a digit.  Returns the matched prefix and the remaining characters. -/
def matchNum (cs : List Char) : Option (List Char × List Char) :=
  match cs.dropWhile Char.isDigit with
  | c :: r2 =>
    if c = '.' then
      if (r2.takeWhile Char.isDigit).isEmpty then
        (if (cs.takeWhile Char.isDigit).isEmpty then none
         else some (cs.takeWhile Char.isDigit, c :: r2))
      else
        some (cs.takeWhile Char.isDigit ++ '.' :: r2.takeWhile Char.isDigit,
          r2.dropWhile Char.isDigit)
    else
      (if (cs.takeWhile Char.isDigit).isEmpty then none
       else some (cs.takeWhile Char.isDigit, c :: r2))
  | [] =>
    if (cs.takeWhile Char.isDigit).isEmpty then none
    else some (cs.takeWhile Char.isDigit, [])

/-- Fuelled scanner for `expression.match(/(\d*\.?\d+|[+\-*\/()])/g) || []`:
at each position try the number alternative, then the single-character
alternative, otherwise skip one character (the JS global match skips
characters that start no match).  Each step consumes at least one character,
so fuel `cs.length` (supplied by `tokenize`) is always enough. -/
def tokenizeF : Nat → List Char → List (List Char)
  | 0, _ => []
  | _, [] => []
  | fuel + 1, c :: cs =>
    match matchNum (c :: cs) with
    | some (t, rest) => t :: tokenizeF fuel rest
    | none =>
      if isOpPar c then [c] :: tokenizeF fuel cs
      else tokenizeF fuel cs

/-- Model of the token scan `expression.match(/(\d*\.?\d+|[+\-*\/()])/g) || []`. -/
def tokenize (cs : List Char) : List (List Char) :=
  tokenizeF cs.length cs

/-- Model of the anchored test `/^\d*\.?\d+$/.test(token)`. -/
def isNumToken (cs : List Char) : Bool :=
  match cs.dropWhile Char.isDigit with
  | [] => !(cs.takeWhile Char.isDigit).isEmpty
  | c :: r2 =>
    c == '.' && !(r2.takeWhile Char.isDigit).isEmpty &&
      (r2.dropWhile Char.isDigit).isEmpty

/-- Numeric value of a decimal digit. -/
def digitVal (c : Char) : Nat := c.toNat - '0'.toNat

/-- Value of a digit string, most significant digit first. -/
def natOfDigits (ds : List Char) : Nat :=
  ds.foldl (fun a c => 10 * a + digitVal c) 0

/-- Model of `parseFloat(token)` on a token matching `\d*\.?\d+`:
integer part, plus fractional part scaled by the number of fraction digits. -/
def parseNum (cs : List Char) : ℚ :=
  match cs.dropWhile Char.isDigit with
  | _ :: r2 =>
    (natOfDigits (cs.takeWhile Char.isDigit) : ℚ) +
      (natOfDigits (r2.takeWhile Char.isDigit) : ℚ) /
        10 ^ (r2.takeWhile Char.isDigit).length
  | [] => (natOfDigits (cs.takeWhile Char.isDigit) : ℚ)

/-- Decidable equality for `Except` results, so that concrete runs of the
evaluator can be checked by `decide`. -/
instance {ε α : Type} [DecidableEq ε] [DecidableEq α] :
    DecidableEq (Except ε α) := fun x y =>
  match x, y with
  | .ok a, .ok b =>
    if h : a = b then isTrue (by rw [h])
    else isFalse (fun hc => h (by cases hc; rfl))
  | .error a, .error b =>
    if h : a = b then isTrue (by rw [h])
    else isFalse (fun hc => h (by cases hc; rfl))
  | .ok _, .error _ => isFalse (fun hc => Except.noConfusion hc)
  | .error _, .ok _ => isFalse (fun hc => Except.noConfusion hc)

/-- The error taxonomy of the engine (one constructor per distinct
`throw new Error(...)` message). -/
inductive CalcError
  | invalidCharacter
  | mismatchedParentheses
  | divisionByZero
  | invalidExpression
  | invalidOperator
  deriving DecidableEq

/-- An element of the RPN output array: a parsed number or an operator
character (mirroring the mixed number/string array of `toRPN`). -/
inductive RTok
  | num (q : ℚ)
  | op (c : Char)
  deriving DecidableEq

/-- Operator precedence table of the engine (`+`,`-` = 1; `*`,`/` = 2).
Any other character has no entry; comparisons against the resulting
`undefined` are false in JS, which value `0` reproduces under `≥`. -/
def precedence (c : Char) : Nat :=
  if c = '+' || c = '-' then 1
  else if c = '*' || c = '/' then 2
  else 0

/-- The operator-token pop loop of the Shunting Yard conversion: while the
operator stack is nonempty, its top is not `(` and the top's precedence is
at least the current operator's, move the top to the output. -/
def popOps (c : Char) (out : List RTok) : List Char → List RTok × List Char
  | [] => (out, [])
  | t :: rest =>
    if t ≠ '(' ∧ precedence c ≤ precedence t then
      popOps c (out ++ [RTok.op t]) rest
    else (out, t :: rest)

/-- The `)` pop loop: move operators to the output until a `(` is found and
discarded; if the stack empties first (`operators.pop()` returns
`undefined`), fail with `MismatchedParentheses`. -/
def popUntilParen (out : List RTok) :
    List Char → Except CalcError (List RTok × List Char)
  | [] => .error .mismatchedParentheses
  | t :: rest =>
    if t = '(' then .ok (out, rest)
    else popUntilParen (out ++ [RTok.op t]) rest

/-- The final drain of the operator stack: pop everything into the output,
failing with `MismatchedParentheses` if a `(` is left on the stack. -/
def drainOps (out : List RTok) : List Char → Except CalcError (List RTok)
  | [] => .ok out
  | t :: rest =>
    if t = '(' then .error .mismatchedParentheses
    else drainOps (out ++ [RTok.op t]) rest

/-- The token loop of `toRPN`: numbers to the output, `(` onto the operator
stack, `)` pops until `(`, and an operator pops by precedence then pushes
itself.  A multi-character non-number token would crash the JS source with a
`TypeError` (unreachable from `tokenize`); it is modelled as a failure. -/
def syRun : List RTok → List Char → List (List Char) →
    Except CalcError (List RTok × List Char)
  | out, ops, [] => .ok (out, ops)
  | out, ops, t :: ts =>
    if isNumToken t then syRun (out ++ [RTok.num (parseNum t)]) ops ts
    else if t = ['('] then syRun out ('(' :: ops) ts
    else if t = [')'] then
      match popUntilParen out ops with
      | .error e => .error e
      | .ok pr => syRun pr.1 pr.2 ts
    else
      match t with
      | [c] => syRun (popOps c out ops).1 (c :: (popOps c out ops).2) ts
      | _ => .error .invalidOperator

/-- Model of `toRPN(expression)`: tokenize, run the Shunting Yard loop,
then drain the operator stack. -/
def toRPN (cs : List Char) : Except CalcError (List RTok) :=
  match syRun [] [] (tokenize cs) with
  | .error e => .error e
  | .ok (out, ops) => drainOps out ops

/-- The operator table's operations: `+ - * /` on rationals, `/` failing
with `DivisionByZero` when the divisor is exactly `0`; any other character
has no table entry and fails with `InvalidOperator`. -/
def applyOp (c : Char) (a b : ℚ) : Except CalcError ℚ :=
  if c = '+' then .ok (a + b)
  else if c = '-' then .ok (a - b)
  else if c = '*' then .ok (a * b)
  else if c = '/' then
    if b = 0 then .error .divisionByZero else .ok (a / b)
  else .error .invalidOperator

/-- The evaluation loop of `evaluateRPN`: push numbers; on an operator pop
`b` then `a` (failing with `InvalidExpression` on underflow, before the
operator lookup), apply the operator to `(a, b)` and push the result. -/
def evalSteps : List ℚ → List RTok → Except CalcError (List ℚ)
  | stk, [] => .ok stk
  | stk, RTok.num q :: rest => evalSteps (q :: stk) rest
  | stk, RTok.op c :: rest =>
    match stk with
    | b :: a :: stk' =>
      match applyOp c a b with
      | .error e => .error e
      | .ok r => evalSteps (r :: stk') rest
    | _ => .error .invalidExpression

/-- Model of `parseFloat(r.toFixed(8))`: round `r` to 8 fractional digits. -/
def roundTo8 (q : ℚ) : ℚ :=
  (round (q * 10 ^ 8) : ℚ) / 10 ^ 8

/-- Model of `Number.isInteger(r) ? r : parseFloat(r.toFixed(8))`. -/
def formatResult (q : ℚ) : ℚ :=
  if q.den = 1 then q else roundTo8 q

/-- Model of `evaluateRPN(rpn)`: run the stack loop, require exactly one
remaining value, and normalize it. -/
def evaluateRPN (rpn : List RTok) : Except CalcError ℚ :=
  match evalSteps [] rpn with
  | .error e => .error e
  | .ok [r] => .ok (formatResult r)
  | .ok _ => .error .invalidExpression

/-- Model of `CalculatorEngine.calculate(expression)` on a character list:
strip whitespace, validate the character class, convert to RPN, evaluate. -/
def calcChars (cs : List Char) : Except CalcError ℚ :=
  if !validChars (stripWhitespace cs) then .error .invalidCharacter
  else
    match toRPN (stripWhitespace cs) with
    | .error er => .error er
    | .ok rpn => evaluateRPN rpn

namespace CalculatorEngine

/-- `CalculatorEngine.calculate` on a `String`. -/
def calculate (s : String) : Except CalcError ℚ :=
  calcChars s.data

end CalculatorEngine

/-- The RPN evaluation switch of `script.js`'s `safeCalculate`: same pops,
underflow check and division-by-zero check, but an operator character
outside `+ - * /` matches no `case` and simply pushes nothing. -/
def evalStepsScript : List ℚ → List RTok → Except CalcError (List ℚ)
  | stk, [] => .ok stk
  | stk, RTok.num q :: rest => evalStepsScript (q :: stk) rest
  | stk, RTok.op c :: rest =>
    match stk with
    | b :: a :: stk' =>
      if c = '+' then evalStepsScript ((a + b) :: stk') rest
      else if c = '-' then evalStepsScript ((a - b) :: stk') rest
      else if c = '*' then evalStepsScript ((a * b) :: stk') rest
      else if c = '/' then
        if b = 0 then .error .divisionByZero
        else evalStepsScript ((a / b) :: stk') rest
      else evalStepsScript stk' rest
    | _ => .error .invalidExpression

/-- Model of `safeCalculate(expression)` from `script.js` on a character
list.  Its whitespace stripping, validation regex, token regex and Shunting
Yard loop are character-for-character identical to the engine's, so those
parts reuse the definitions above; the RPN evaluation uses the `switch`
variant and the raw result is returned without formatting (the formatting
is applied by `calculateResult` at the call site). -/
def safeCalcChars (cs : List Char) : Except CalcError ℚ :=
  if !validChars (stripWhitespace cs) then .error .invalidCharacter
  else
    match toRPN (stripWhitespace cs) with
    | .error er => .error er
    | .ok rpn =>
      match evalStepsScript [] rpn with
      | .error e => .error e
      | .ok [r] => .ok r
      | .ok _ => .error .invalidExpression

/-- `safeCalculate` on a `String`. -/
def safeCalculate (s : String) : Except CalcError ℚ :=
  safeCalcChars s.data

/-- Stopping condition of the precedence pop loop: empty stack, a `(`, or a
top operator of strictly smaller precedence. -/
def PopStop (c : Char) (ops : List Char) : Prop :=
  ops = [] ∨ ∃ t rs, ops = t :: rs ∧ (t = '(' ∨ precedence t < precedence c)

/-- Shape of a number token produced by the scanner: either all digits
(at least one), or zero or more digits, a decimal point, then at least one
digit — the pattern `\d*\.?\d+`. -/
def NumTokenShape (t : List Char) : Prop :=
  (t ≠ [] ∧ ∀ c ∈ t, c.isDigit = true) ∨
    ∃ d1 d2, d2 ≠ [] ∧ (∀ c ∈ d1, c.isDigit = true) ∧
      (∀ c ∈ d2, c.isDigit = true) ∧ t = d1 ++ '.' :: d2

/-- The four operator characters that have a table entry. -/
def IsOp4 (c : Char) : Prop := c = '+' ∨ c = '-' ∨ c = '*' ∨ c = '/'

/-- Every operator element of an RPN output list is one of the four
operators. -/
def OutWF (out : List RTok) : Prop := ∀ c, RTok.op c ∈ out → IsOp4 c

/-- Every element of the operator stack is `(` or one of the four
operators. -/
def OpsWF (ops : List Char) : Prop := ∀ t ∈ ops, t = '(' ∨ IsOp4 t

/-- Nonterminal levels of the standard infix grammar: expressions
(`+`/`-` chains), terms (`*`/`/` chains), factors (literals and
parenthesized expressions). -/
inductive Level
  | e
  | t
  | f
  deriving DecidableEq

/-- A non-negative decimal number literal together with its value: one or
more digits, optionally followed by a decimal point and one or more
digits. -/
def LitStr (cs : List Char) (v : ℚ) : Prop :=
  ∃ d1 d2 : List Char, d1 ≠ [] ∧ (∀ c ∈ d1, c.isDigit = true) ∧
    ((cs = d1 ∧ v = natOfDigits d1) ∨
     (d2 ≠ [] ∧ (∀ c ∈ d2, c.isDigit = true) ∧ cs = d1 ++ '.' :: d2 ∧
       v = (natOfDigits d1 : ℚ) + (natOfDigits d2 : ℚ) / 10 ^ d2.length))

/-- The standard infix grammar over character strings, indexed by level,
paired with the value of the expression under exact rational semantics:
left-to-right grouping for equal precedence, `*`/`/` binding tighter than
`+`/`-`, parentheses grouping explicitly; division requires a nonzero
divisor. -/
inductive ValidExpr : Level → List Char → ℚ → Prop
  | lit {cs : List Char} {v : ℚ} : LitStr cs v → ValidExpr .f cs v
  | paren {cs : List Char} {v : ℚ} :
      ValidExpr .e cs v → ValidExpr .f ('(' :: cs ++ [')']) v
  | tf {cs : List Char} {v : ℚ} : ValidExpr .f cs v → ValidExpr .t cs v
  | mul {cs1 : List Char} {v1 : ℚ} {cs2 : List Char} {v2 : ℚ} :
      ValidExpr .t cs1 v1 → ValidExpr .f cs2 v2 →
      ValidExpr .t (cs1 ++ '*' :: cs2) (v1 * v2)
  | div {cs1 : List Char} {v1 : ℚ} {cs2 : List Char} {v2 : ℚ} :
      ValidExpr .t cs1 v1 → ValidExpr .f cs2 v2 → v2 ≠ 0 →
      ValidExpr .t (cs1 ++ '/' :: cs2) (v1 / v2)
  | et {cs : List Char} {v : ℚ} : ValidExpr .t cs v → ValidExpr .e cs v
  | add {cs1 : List Char} {v1 : ℚ} {cs2 : List Char} {v2 : ℚ} :
      ValidExpr .e cs1 v1 → ValidExpr .t cs2 v2 →
      ValidExpr .e (cs1 ++ '+' :: cs2) (v1 + v2)
  | sub {cs1 : List Char} {v1 : ℚ} {cs2 : List Char} {v2 : ℚ} :
      ValidExpr .e cs1 v1 → ValidExpr .t cs2 v2 →
      ValidExpr .e (cs1 ++ '-' :: cs2) (v1 - v2)

/-- A continuation string that starts (if nonempty) with an
operator/parenthesis character; tokenizing a grammar fragment is
compositional in front of such continuations. -/
def OpStart (rest : List Char) : Prop :=
  rest = [] ∨ ∃ c rs, rest = c :: rs ∧ isOpPar c = true

/-- The fragment `cs` tokenizes to `ts` in front of any `OpStart`
continuation. -/
def TkOK (cs : List Char) (ts : List (List Char)) : Prop :=
  ∀ rest : List Char, OpStart rest →
    tokenize (cs ++ rest) = ts ++ tokenize rest

/-- Running the RPN fragment `r` from any stack pushes exactly `v`. -/
def EvOK (r : List RTok) (v : ℚ) : Prop :=
  ∀ (stk : List ℚ) (rest : List RTok),
    evalSteps stk (r ++ rest) = evalSteps (v :: stk) rest

/-- Operator-stack barrier at expression level: empty or `(` on top. -/
def EBar (ops : List Char) : Prop := ops = [] ∨ ∃ rs, ops = '(' :: rs

/-- Operator-stack barrier at term level: empty, or `(`, `+` or `-` on
top. -/
def TBar (ops : List Char) : Prop :=
  ops = [] ∨ (∃ rs, ops = '(' :: rs) ∨ (∃ rs, ops = '+' :: rs) ∨
    ∃ rs, ops = '-' :: rs

/-- Pending operators after a term: nothing, or one `*`/`/`. -/
def PendT (p : List Char) : Prop := p = [] ∨ p = ['*'] ∨ p = ['/']

/-- Pending operators after an expression: a term pending below one
optional `+`/`-`. -/
def PendE (p : List Char) : Prop :=
  ∃ pm pa, PendT pm ∧ (pa = [] ∨ pa = ['+'] ∨ pa = ['-']) ∧ p = pm ++ pa

/-- The induction motive of the Shunting Yard correctness proof, by
grammar level: the fragment tokenizes compositionally, its RPN fragment
pushes exactly its value, and running the Shunting Yard loop over its
tokens from a suitable barrier appends the fragment's RPN output and
leaves its pending operators on the stack. -/
def SyGoal : Level → List Char → ℚ → Prop
  | .f, cs, v => ∃ ts r, TkOK cs ts ∧ EvOK r v ∧
      ∀ (out : List RTok) (ops : List Char),
        syRun out ops ts = .ok (out ++ r, ops)
  | .t, cs, v => ∃ ts o p, TkOK cs ts ∧ PendT p ∧
      EvOK (o ++ p.map RTok.op) v ∧
      ∀ (out : List RTok) (ops : List Char), TBar ops →
        syRun out ops ts = .ok (out ++ o, p ++ ops)
  | .e, cs, v => ∃ ts o p, TkOK cs ts ∧ PendE p ∧
      EvOK (o ++ p.map RTok.op) v ∧
      ∀ (out : List RTok) (ops : List Char), EBar ops →
        syRun out ops ts = .ok (out ++ o, p ++ ops)

/-! ### Helper lemmas about the scanner -/

lemma takeWhile_app (p : Char → Bool) :
    ∀ (l1 l2 : List Char), (∀ a ∈ l1, p a = true) →
      (∀ c, l2.head? = some c → p c = false) →
      (l1 ++ l2).takeWhile p = l1
  | [], l2, _, h2 => by
    cases l2 with
    | nil => rfl
    | cons c t =>
      simp only [List.nil_append]
      exact List.takeWhile_cons_of_neg (by simp [h2 c rfl])
  | a :: l1, l2, h1, h2 => by
    simp only [List.cons_append]
    rw [List.takeWhile_cons_of_pos (h1 a (by simp))]
    rw [takeWhile_app p l1 l2 (fun x hx => h1 x (by simp [hx])) h2]

lemma dropWhile_app (p : Char → Bool) :
    ∀ (l1 l2 : List Char), (∀ a ∈ l1, p a = true) →
      (∀ c, l2.head? = some c → p c = false) →
      (l1 ++ l2).dropWhile p = l2
  | [], l2, _, h2 => by
    cases l2 with
    | nil => rfl
    | cons c t =>
      simp only [List.nil_append]
      exact List.dropWhile_cons_of_neg (by simp [h2 c rfl])
  | a :: l1, l2, h1, h2 => by
    simp only [List.cons_append]
    rw [List.dropWhile_cons_of_pos (h1 a (by simp))]
    exact dropWhile_app p l1 l2 (fun x hx => h1 x (by simp [hx])) h2

lemma isOpPar_cases {c : Char} (h : isOpPar c = true) :
    c = '+' ∨ c = '-' ∨ c = '*' ∨ c = '/' ∨ c = '(' ∨ c = ')' := by
  simp only [isOpPar, Bool.or_eq_true, beq_iff_eq] at h
  tauto

lemma isOpPar_not_digit {c : Char} (h : isOpPar c = true) :
    c.isDigit = false := by
  rcases isOpPar_cases h with rfl | rfl | rfl | rfl | rfl | rfl <;> decide

lemma isOpPar_ne_dot {c : Char} (h : isOpPar c = true) : c ≠ '.' := by
  rcases isOpPar_cases h with rfl | rfl | rfl | rfl | rfl | rfl <;> decide

lemma matchNum_cons_none {c : Char} (cs : List Char)
    (hd : c.isDigit = false) (hne : c ≠ '.') : matchNum (c :: cs) = none := by
  simp [matchNum, List.takeWhile_cons_of_neg, List.dropWhile_cons_of_neg, hd,
    hne]

lemma matchNum_some : ∀ (cs t r : List Char),
    matchNum cs = some (t, r) → cs = t ++ r ∧ t ≠ [] := by
  intro cs t r h
  have hsplit : cs.takeWhile Char.isDigit ++ cs.dropWhile Char.isDigit = cs :=
    List.takeWhile_append_dropWhile Char.isDigit _
  unfold matchNum at h
  split at h
  case _ c r2 heq =>
    rw [heq] at hsplit
    split at h
    case isTrue hc =>
      split at h
      case isTrue hd2 =>
        split at h
        case isTrue hd1 => exact absurd h (by simp)
        case isFalse hd1 =>
          obtain ⟨h1, h2⟩ : cs.takeWhile Char.isDigit = t ∧ c :: r2 = r := by
            simpa using h
          subst h1; subst h2
          exact ⟨hsplit.symm, by simpa [List.isEmpty_iff] using hd1⟩
      case isFalse hd2 =>
        obtain ⟨h1, h2⟩ :
            cs.takeWhile Char.isDigit ++ '.' :: r2.takeWhile Char.isDigit = t
              ∧ r2.dropWhile Char.isDigit = r := by simpa using h
        subst h1; subst h2; subst hc
        have hr2 :
            r2.takeWhile Char.isDigit ++ r2.dropWhile Char.isDigit = r2 :=
          List.takeWhile_append_dropWhile Char.isDigit _
        constructor
        · have hre :
              (cs.takeWhile Char.isDigit ++ '.' :: r2.takeWhile Char.isDigit)
                ++ r2.dropWhile Char.isDigit =
              cs.takeWhile Char.isDigit ++ '.' ::
                (r2.takeWhile Char.isDigit ++ r2.dropWhile Char.isDigit) := by
            simp
          rw [hre, hr2]
          exact hsplit.symm
        · simp
    case isFalse hc =>
      split at h
      case isTrue hd1 => exact absurd h (by simp)
      case isFalse hd1 =>
        obtain ⟨h1, h2⟩ : cs.takeWhile Char.isDigit = t ∧ c :: r2 = r := by
          simpa using h
        subst h1; subst h2
        exact ⟨hsplit.symm, by simpa [List.isEmpty_iff] using hd1⟩
  case _ heq =>
    rw [heq] at hsplit
    split at h
    case isTrue hd1 => exact absurd h (by simp)
    case isFalse hd1 =>
      obtain ⟨h1, h2⟩ : cs.takeWhile Char.isDigit = t ∧ [] = r := by
        simpa using h
      subst h1; subst h2
      exact ⟨by simpa using hsplit.symm, by simpa [List.isEmpty_iff] using hd1⟩

lemma tokenizeF_eq : ∀ (n : Nat) (cs : List Char), cs.length ≤ n →
    tokenizeF n cs = tokenize cs := by
  intro n
  induction n using Nat.strong_induction_on with
  | _ n ih =>
    intro cs hle
    cases cs with
    | nil => cases n <;> rfl
    | cons c cs' =>
      cases n with
      | zero => simp at hle
      | succ m =>
        have hm : cs'.length ≤ m := by simpa using hle
        show tokenizeF (m + 1) (c :: cs') = tokenizeF (c :: cs').length _
        simp only [List.length_cons]
        cases hmn : matchNum (c :: cs') with
        | some tr =>
          obtain ⟨t, rest⟩ := tr
          obtain ⟨hdec, hne⟩ := matchNum_some _ _ _ hmn
          have hlen : cs'.length + 1 = t.length + rest.length := by
            have := congrArg List.length hdec
            simpa using this
          have htpos : 1 ≤ t.length :=
            List.length_pos.mpr hne
          have hr : rest.length ≤ cs'.length := by omega
          simp only [tokenizeF, hmn]
          rw [ih m (by omega) rest (by omega),
            ih cs'.length (by omega) rest hr]
        | none =>
          simp only [tokenizeF, hmn]
          by_cases ho : isOpPar c
          · simp only [ho, if_true]
            rw [ih m (by omega) cs' hm, ih cs'.length (by omega) cs' le_rfl]
          · simp only [ho, if_false]
            rw [ih m (by omega) cs' hm, ih cs'.length (by omega) cs' le_rfl]

lemma tokenize_nil : tokenize [] = [] := rfl

lemma tokenize_cons_num {c : Char} {cs t rest : List Char}
    (h : matchNum (c :: cs) = some (t, rest)) :
    tokenize (c :: cs) = t :: tokenize rest := by
  obtain ⟨hdec, hne⟩ := matchNum_some _ _ _ h
  have hlen : cs.length + 1 = t.length + rest.length := by
    have := congrArg List.length hdec
    simpa using this
  have htpos : 1 ≤ t.length := List.length_pos.mpr hne
  show tokenizeF (c :: cs).length (c :: cs) = _
  simp only [List.length_cons, tokenizeF, h]
  rw [tokenizeF_eq cs.length rest (by omega)]

lemma tokenize_cons_op {c : Char} {cs : List Char}
    (hn : matchNum (c :: cs) = none) (ho : isOpPar c = true) :
    tokenize (c :: cs) = [c] :: tokenize cs := by
  show tokenizeF (c :: cs).length (c :: cs) = _
  simp only [List.length_cons, tokenizeF, hn, ho, if_true]
  rw [tokenizeF_eq cs.length cs le_rfl]

lemma tokenize_cons_skip {c : Char} {cs : List Char}
    (hn : matchNum (c :: cs) = none) (ho : isOpPar c = false) :
    tokenize (c :: cs) = tokenize cs := by
  show tokenizeF (c :: cs).length (c :: cs) = _
  simp only [List.length_cons, tokenizeF, hn, ho, Bool.false_eq_true,
    if_false]
  rw [tokenizeF_eq cs.length cs le_rfl]

lemma takeWhile_all (p : Char → Bool) :
    ∀ l : List Char, (∀ a ∈ l, p a = true) →
      l.takeWhile p = l ∧ l.dropWhile p = []
  | [], _ => ⟨rfl, rfl⟩
  | a :: l, h => by
    have ha : p a = true := h a (by simp)
    have ih := takeWhile_all p l (fun x hx => h x (by simp [hx]))
    rw [List.takeWhile_cons_of_pos ha, List.dropWhile_cons_of_pos ha]
    exact ⟨by rw [ih.1], ih.2⟩

lemma matchNum_digits {d1 rest : List Char} (h1 : d1 ≠ [])
    (hall : ∀ c ∈ d1, c.isDigit = true)
    (hrest : ∀ c, rest.head? = some c → c.isDigit = false ∧ c ≠ '.') :
    matchNum (d1 ++ rest) = some (d1, rest) := by
  have ht := takeWhile_app Char.isDigit d1 rest hall
    (fun c hc => (hrest c hc).1)
  have hd := dropWhile_app Char.isDigit d1 rest hall
    (fun c hc => (hrest c hc).1)
  unfold matchNum
  rw [ht, hd]
  cases rest with
  | nil => simp [List.isEmpty_iff, h1]
  | cons c rs =>
    have hc := hrest c rfl
    simp [hc.2, List.isEmpty_iff, h1]

lemma matchNum_digits_dot {d1 d2 rest : List Char} (h2 : d2 ≠ [])
    (hall1 : ∀ c ∈ d1, c.isDigit = true)
    (hall2 : ∀ c ∈ d2, c.isDigit = true)
    (hrest : ∀ c, rest.head? = some c → c.isDigit = false) :
    matchNum ((d1 ++ '.' :: d2) ++ rest) = some (d1 ++ '.' :: d2, rest) := by
  have ht := takeWhile_app Char.isDigit d1 ('.' :: (d2 ++ rest)) hall1
    (by intro c hc; cases hc; decide)
  have hd := dropWhile_app Char.isDigit d1 ('.' :: (d2 ++ rest)) hall1
    (by intro c hc; cases hc; decide)
  have ht2 := takeWhile_app Char.isDigit d2 rest hall2 hrest
  have hd2 := dropWhile_app Char.isDigit d2 rest hall2 hrest
  have hassoc : (d1 ++ '.' :: d2) ++ rest = d1 ++ ('.' :: (d2 ++ rest)) := by
    simp
  rw [hassoc]
  simp [matchNum, ht, hd, ht2, hd2, List.isEmpty_iff, h2]

lemma parseNum_digits {d1 : List Char} (hall : ∀ c ∈ d1, c.isDigit = true) :
    parseNum d1 = natOfDigits d1 := by
  have h := takeWhile_all Char.isDigit d1 hall
  unfold parseNum
  rw [h.1, h.2]

lemma parseNum_digits_dot {d1 d2 : List Char}
    (hall1 : ∀ c ∈ d1, c.isDigit = true)
    (hall2 : ∀ c ∈ d2, c.isDigit = true) :
    parseNum (d1 ++ '.' :: d2) =
      (natOfDigits d1 : ℚ) + (natOfDigits d2 : ℚ) / 10 ^ d2.length := by
  have ht := takeWhile_app Char.isDigit d1 ('.' :: d2) hall1
    (by intro c hc; cases hc; decide)
  have hd := dropWhile_app Char.isDigit d1 ('.' :: d2) hall1
    (by intro c hc; cases hc; decide)
  have h2 := takeWhile_all Char.isDigit d2 hall2
  simp [parseNum, ht, hd, h2.1]

lemma isNumToken_digits {d1 : List Char} (h1 : d1 ≠ [])
    (hall : ∀ c ∈ d1, c.isDigit = true) : isNumToken d1 = true := by
  have h := takeWhile_all Char.isDigit d1 hall
  unfold isNumToken
  rw [h.1, h.2]
  simpa [List.isEmpty_iff] using h1

lemma isNumToken_digits_dot {d1 d2 : List Char} (h2 : d2 ≠ [])
    (hall1 : ∀ c ∈ d1, c.isDigit = true)
    (hall2 : ∀ c ∈ d2, c.isDigit = true) :
    isNumToken (d1 ++ '.' :: d2) = true := by
  have ht := takeWhile_app Char.isDigit d1 ('.' :: d2) hall1
    (by intro c hc; cases hc; decide)
  have hd := dropWhile_app Char.isDigit d1 ('.' :: d2) hall1
    (by intro c hc; cases hc; decide)
  have hw := takeWhile_all Char.isDigit d2 hall2
  simp [isNumToken, hd, hw.1, hw.2, List.isEmpty_iff, h2]

lemma isNumToken_single_op {c : Char} (h : isOpPar c = true) :
    isNumToken [c] = false := by
  rcases isOpPar_cases h with rfl | rfl | rfl | rfl | rfl | rfl <;> decide

/-! ### Helper lemmas about the operator-stack loops -/

lemma popUntilParen_flush (out : List RTok) :
    ∀ (p : List Char) (rest : List Char), (∀ t ∈ p, t ≠ '(') →
      popUntilParen out (p ++ '(' :: rest) =
        .ok (out ++ p.map RTok.op, rest) := by
  intro p
  induction p generalizing out with
  | nil => intro rest _; simp [popUntilParen]
  | cons t p ih =>
    intro rest hp
    have hne : t ≠ '(' := hp t (by simp)
    show popUntilParen out ((t :: p) ++ '(' :: rest) = _
    rw [List.cons_append]
    unfold popUntilParen
    rw [if_neg hne, ih (out ++ [RTok.op t]) rest (fun x hx => hp x (by simp [hx]))]
    simp

lemma popUntilParen_error_iff (out : List RTok) (ops : List Char) :
    popUntilParen out ops = .error .mismatchedParentheses ↔ '(' ∉ ops := by
  induction ops generalizing out with
  | nil => simp [popUntilParen]
  | cons t rest ih =>
    by_cases ht : t = '('
    · subst ht
      simp [popUntilParen]
    · unfold popUntilParen
      rw [if_neg ht, ih]
      have ht' : ¬('(' = t) := fun h => ht h.symm
      simp [List.mem_cons, ht']

lemma drainOps_no_paren (out : List RTok) :
    ∀ ops : List Char, (∀ t ∈ ops, t ≠ '(') →
      drainOps out ops = .ok (out ++ ops.map RTok.op) := by
  intro ops
  induction ops generalizing out with
  | nil => intro _; simp [drainOps]
  | cons t rest ih =>
    intro hp
    unfold drainOps
    rw [if_neg (hp t (by simp)),
      ih (out ++ [RTok.op t]) (fun x hx => hp x (by simp [hx]))]
    simp

lemma drainOps_error_iff (out : List RTok) (ops : List Char) :
    drainOps out ops = .error .mismatchedParentheses ↔ '(' ∈ ops := by
  induction ops generalizing out with
  | nil => simp [drainOps]
  | cons t rest ih =>
    by_cases ht : t = '('
    · subst ht
      simp [drainOps]
    · unfold drainOps
      rw [if_neg ht, ih]
      have ht' : ¬('(' = t) := fun h => ht h.symm
      simp [List.mem_cons, ht']


lemma popOps_stop {c : Char} (out : List RTok) {ops : List Char}
    (h : PopStop c ops) : popOps c out ops = (out, ops) := by
  rcases h with rfl | ⟨t, rs, rfl, ht⟩
  · rfl
  · unfold popOps
    rw [if_neg]
    rcases ht with rfl | ht
    · simp
    · intro hand
      exact absurd hand.2 (by omega)

lemma popOps_flush {c : Char} (out : List RTok) :
    ∀ (p : List Char) (ops : List Char),
      (∀ t ∈ p, t ≠ '(' ∧ precedence c ≤ precedence t) → PopStop c ops →
      popOps c out (p ++ ops) = (out ++ p.map RTok.op, ops) := by
  intro p
  induction p generalizing out with
  | nil =>
    intro ops _ hstop
    rw [List.nil_append, popOps_stop out hstop]
    simp
  | cons t p ih =>
    intro ops hp hstop
    have ht := hp t (by simp)
    show popOps c out ((t :: p) ++ ops) = _
    rw [List.cons_append]
    unfold popOps
    rw [if_pos ⟨ht.1, ht.2⟩,
      ih (out ++ [RTok.op t]) ops (fun x hx => hp x (by simp [hx])) hstop]
    simp

/-- Running the RPN evaluation loop over an appended list first runs the
prefix; if that succeeds, the rest runs from the resulting stack. -/
lemma evalSteps_app : ∀ (r1 : List RTok) (stk s' : List ℚ) (r2 : List RTok),
    evalSteps stk r1 = .ok s' → evalSteps stk (r1 ++ r2) = evalSteps s' r2 := by
  intro r1
  induction r1 with
  | nil =>
    intro stk s' r2 h
    obtain rfl : stk = s' := by simpa [evalSteps] using h
    rfl
  | cons t r1 ih =>
    intro stk s' r2 h
    cases t with
    | num q =>
      rw [List.cons_append]
      exact ih _ _ _ (by simpa [evalSteps] using h)
    | op c =>
      rw [List.cons_append]
      cases stk with
      | nil => simp [evalSteps] at h
      | cons b stk0 =>
        cases stk0 with
        | nil => simp [evalSteps] at h
        | cons a stk' =>
          cases happ : applyOp c a b with
          | error e => simp [evalSteps, happ] at h
          | ok r =>
            simp only [evalSteps, happ] at h ⊢
            exact ih _ _ _ h

lemma applyOp_add (a b : ℚ) : applyOp '+' a b = .ok (a + b) := rfl

lemma applyOp_sub (a b : ℚ) : applyOp '-' a b = .ok (a - b) := rfl

lemma applyOp_mul (a b : ℚ) : applyOp '*' a b = .ok (a * b) := rfl

lemma applyOp_div_zero (a : ℚ) :
    applyOp '/' a 0 = .error CalcError.divisionByZero := rfl

lemma applyOp_div {b : ℚ} (a : ℚ) (hb : b ≠ 0) :
    applyOp '/' a b = .ok (a / b) := by
  unfold applyOp
  rw [if_neg (by decide), if_neg (by decide), if_neg (by decide),
    if_pos rfl, if_neg hb]

lemma isWsChar_false_of_digit {c : Char} (h : c.isDigit = true) :
    isWsChar c = false := by
  rcases hw : isWsChar c
  · rfl
  · exfalso
    simp only [isWsChar, Bool.or_eq_true, beq_iff_eq] at hw
    rcases hw with ((rfl | rfl) | rfl) | rfl <;> simp at h

lemma isAllowedChar_of_digit {c : Char} (h : c.isDigit = true) :
    isAllowedChar c = true := by
  simp [isAllowedChar, h]

/-! ### Claim theorems -/

/-- C3: whenever `/` is applied during postfix evaluation and the divisor
(the more recently pushed value) is exactly `0`, evaluation fails with
`DivisionByZero`, for every dividend; for any nonzero divisor the quotient
is produced instead (no epsilon tolerance); in particular
`evaluate("5/0") = Err(DivisionByZero)`. -/
theorem division_by_zero_exact (a b : ℚ) (s : List ℚ) (rest : List RTok)
    (hb : b ≠ 0) :
    evalSteps (0 :: a :: s) (RTok.op '/' :: rest) =
        .error CalcError.divisionByZero
    ∧ applyOp '/' a b = .ok (a / b)
    ∧ CalculatorEngine.calculate "5/0" = .error CalcError.divisionByZero := by
  refine ⟨?_, applyOp_div a hb, by decide⟩
  simp [evalSteps, applyOp_div_zero]

/-- Witness for C3: dividend 5, divisor 0 on the stack fails; 5 / 2
succeeds with 5/2; `"5/0"` fails. -/
theorem division_by_zero_exact_witness :
    evalSteps (0 :: 5 :: []) (RTok.op '/' :: []) =
        .error CalcError.divisionByZero
    ∧ applyOp '/' 5 2 = .ok (5 / 2)
    ∧ CalculatorEngine.calculate "5/0" = .error CalcError.divisionByZero :=
  division_by_zero_exact 5 2 [] [] (by norm_num)

/-- C4: an operator token pops `b` then `a` (the more recently pushed value
is the right operand) and fails with `InvalidExpression` when fewer than two
values are on the stack; after the whole RPN sequence is consumed, anything
but exactly one remaining value is an `InvalidExpression` failure; in
particular `evaluate("2++2") = Err(InvalidExpression)`. -/
theorem rpn_stack_discipline (c : Char) (a b : ℚ) (s stk1 stk2 : List ℚ)
    (rest rpn : List RTok) (h1 : stk1.length < 2)
    (h2 : evalSteps [] rpn = .ok stk2) (h3 : stk2.length ≠ 1) :
    evalSteps stk1 (RTok.op c :: rest) = .error CalcError.invalidExpression
    ∧ evalSteps (b :: a :: s) (RTok.op '-' :: rest) =
        evalSteps ((a - b) :: s) rest
    ∧ evaluateRPN rpn = .error CalcError.invalidExpression
    ∧ CalculatorEngine.calculate "2++2" = .error CalcError.invalidExpression
    := by
  refine ⟨?_, ?_, ?_, by decide⟩
  · match stk1, h1 with
    | [], _ => simp [evalSteps]
    | [x], _ => simp [evalSteps]
  · simp [evalSteps, applyOp_sub]
  · unfold evaluateRPN
    rw [h2]
    match stk2, h3 with
    | [], _ => rfl
    | x :: y :: s, _ => rfl

/-- Witness for C4 at concrete inputs: underflow on the empty stack,
`8 - 3` with the subtrahend on top, the empty RPN program leaving zero
values, and `"2++2"`. -/
theorem rpn_stack_discipline_witness :
    evalSteps [] (RTok.op '+' :: []) = .error CalcError.invalidExpression
    ∧ evalSteps (3 :: 8 :: []) (RTok.op '-' :: []) =
        evalSteps ((8 - 3) :: []) []
    ∧ evaluateRPN [] = .error CalcError.invalidExpression
    ∧ CalculatorEngine.calculate "2++2" = .error CalcError.invalidExpression
    :=
  rpn_stack_discipline '+' 8 3 [] [] [] [] [] (by decide) rfl (by decide)

/-- C5: a `)` pops operators into the output until a `(` is found and
discarded; popping fails with `MismatchedParentheses` exactly when the
stack has no `(`, and the final drain fails exactly when a `(` remains;
in particular `evaluate("(1+2") = Err(MismatchedParentheses)`. -/
theorem paren_matching (out : List RTok) (p ops rest : List Char)
    (hp : ∀ t ∈ p, t ≠ '(') :
    popUntilParen out (p ++ '(' :: rest) = .ok (out ++ p.map RTok.op, rest)
    ∧ (popUntilParen out ops = .error CalcError.mismatchedParentheses ↔
        '(' ∉ ops)
    ∧ (drainOps out ops = .error CalcError.mismatchedParentheses ↔
        '(' ∈ ops)
    ∧ CalculatorEngine.calculate "(1+2" =
        .error CalcError.mismatchedParentheses :=
  ⟨popUntilParen_flush out p rest hp, popUntilParen_error_iff out ops,
    drainOps_error_iff out ops, by decide⟩

/-- Witness for C5: popping `['+', '(']` moves `+` to the output and
discards the `(`; `['+']` has no `(` so popping fails; draining `['(']`
fails; `"(1+2"` fails. -/
theorem paren_matching_witness :
    popUntilParen [] (['+'] ++ '(' :: []) = .ok ([RTok.op '+'], [])
    ∧ (popUntilParen [] ['+'] = .error CalcError.mismatchedParentheses ↔
        '(' ∉ ['+'])
    ∧ (drainOps [] ['+'] = .error CalcError.mismatchedParentheses ↔
        '(' ∈ ['+'])
    ∧ CalculatorEngine.calculate "(1+2" =
        .error CalcError.mismatchedParentheses :=
  paren_matching [] ['+'] ['+'] [] (by decide)

/-- C6: if, after whitespace stripping, some remaining character is outside
`{0-9, '.', '+', '-', '*', '/', '(', ')'}`, `calculate` fails with
`InvalidCharacter` (the validation happens before tokenization); in
particular `evaluate("2&3") = Err(InvalidCharacter)`. -/
theorem invalid_char_rejected (cs : List Char) (c : Char)
    (hc : c ∈ stripWhitespace cs) (hbad : isAllowedChar c = false) :
    calcChars cs = .error CalcError.invalidCharacter
    ∧ CalculatorEngine.calculate "2&3" = .error CalcError.invalidCharacter
    := by
  refine ⟨?_, by decide⟩
  have hval : validChars (stripWhitespace cs) = false := by
    unfold validChars
    have : (stripWhitespace cs).all isAllowedChar = false := by
      rcases hall : (stripWhitespace cs).all isAllowedChar
      · rfl
      · rw [List.all_eq_true] at hall
        rw [hall c hc] at hbad
        cases hbad
    simp [this]
  simp [calcChars, hval]

/-- Witness for C6 at `"2&3"` with the disallowed character `&`. -/
theorem invalid_char_rejected_witness :
    calcChars "2&3".data = .error CalcError.invalidCharacter
    ∧ CalculatorEngine.calculate "2&3" = .error CalcError.invalidCharacter
    :=
  invalid_char_rejected "2&3".data '&' (by decide) (by decide)

/-- C9: whenever whitespace stripping leaves nothing (the empty input, or
any all-whitespace input), `calculate` fails with `InvalidCharacter` (the
validation regex requires at least one allowed character), not
`InvalidExpression`. -/
theorem empty_input_invalid_char (cs : List Char)
    (h : stripWhitespace cs = []) :
    calcChars cs = .error CalcError.invalidCharacter
    ∧ CalculatorEngine.calculate "" = .error CalcError.invalidCharacter
    ∧ CalculatorEngine.calculate "  " = .error CalcError.invalidCharacter
    := by
  refine ⟨?_, by decide, by decide⟩
  simp [calcChars, h, validChars]

/-- Witness for C9 at the all-whitespace input `" "`. -/
theorem empty_input_invalid_char_witness :
    calcChars " ".data = .error CalcError.invalidCharacter
    ∧ CalculatorEngine.calculate "" = .error CalcError.invalidCharacter
    ∧ CalculatorEngine.calculate "  " = .error CalcError.invalidCharacter
    :=
  empty_input_invalid_char " ".data (by decide)

/-- Counterexample to C7 as stated: on the valid input `".5"` the scanner
produces the number token `".5"`, whose first character is the decimal
point, not a digit (the token pattern is `\d*\.?\d+`, allowing zero digits
before the point), and the engine happily evaluates it to `0.5`. -/
theorem numtoken_leading_dot_cex :
    tokenize (stripWhitespace ".5".data) = [['.', '5']]
    ∧ isNumToken ['.', '5'] = true
    ∧ ('.').isDigit = false
    ∧ CalculatorEngine.calculate ".5" = .ok (1 / 2) := by decide

/-- Counterexample to C10 as stated: the whitespace-stripped input
`"+2(2)"` begins with the operator `+`, yet the engine returns `Ok(4)`
(the RPN sequence comes out as `2 2 +`). -/
theorem leading_op_ok_cex :
    (stripWhitespace "+2(2)".data).head? = some '+'
    ∧ CalculatorEngine.calculate "+2(2)" = .ok 4 := by decide

lemma matchNum_shape {cs t r : List Char} (h : matchNum cs = some (t, r)) :
    isNumToken t = true ∧ NumTokenShape t := by
  unfold matchNum at h
  split at h
  case _ c r2 heq =>
    split at h
    case isTrue hc =>
      split at h
      case isTrue hd2 =>
        split at h
        case isTrue hd1 => exact absurd h (by simp)
        case isFalse hd1 =>
          obtain ⟨h1, _⟩ : cs.takeWhile Char.isDigit = t ∧ c :: r2 = r := by
            simpa using h
          subst h1
          have hne : cs.takeWhile Char.isDigit ≠ [] := by
            simpa [List.isEmpty_iff] using hd1
          have hdig : ∀ x ∈ cs.takeWhile Char.isDigit, x.isDigit = true :=
            fun x hx => List.mem_takeWhile_imp hx
          exact ⟨isNumToken_digits hne hdig, Or.inl ⟨hne, hdig⟩⟩
      case isFalse hd2 =>
        obtain ⟨h1, _⟩ :
            cs.takeWhile Char.isDigit ++ '.' :: r2.takeWhile Char.isDigit = t
              ∧ r2.dropWhile Char.isDigit = r := by simpa using h
        subst h1
        have hne2 : r2.takeWhile Char.isDigit ≠ [] := by
          simpa [List.isEmpty_iff] using hd2
        have hdig1 : ∀ x ∈ cs.takeWhile Char.isDigit, x.isDigit = true :=
          fun x hx => List.mem_takeWhile_imp hx
        have hdig2 : ∀ x ∈ r2.takeWhile Char.isDigit, x.isDigit = true :=
          fun x hx => List.mem_takeWhile_imp hx
        exact ⟨isNumToken_digits_dot hne2 hdig1 hdig2,
          Or.inr ⟨_, _, hne2, hdig1, hdig2, rfl⟩⟩
    case isFalse hc =>
      split at h
      case isTrue hd1 => exact absurd h (by simp)
      case isFalse hd1 =>
        obtain ⟨h1, _⟩ : cs.takeWhile Char.isDigit = t ∧ c :: r2 = r := by
          simpa using h
        subst h1
        have hne : cs.takeWhile Char.isDigit ≠ [] := by
          simpa [List.isEmpty_iff] using hd1
        have hdig : ∀ x ∈ cs.takeWhile Char.isDigit, x.isDigit = true :=
          fun x hx => List.mem_takeWhile_imp hx
        exact ⟨isNumToken_digits hne hdig, Or.inl ⟨hne, hdig⟩⟩
  case _ heq =>
    split at h
    case isTrue hd1 => exact absurd h (by simp)
    case isFalse hd1 =>
      obtain ⟨h1, _⟩ : cs.takeWhile Char.isDigit = t ∧ ([] : List Char) = r := by
        simpa using h
      subst h1
      have hne : cs.takeWhile Char.isDigit ≠ [] := by
        simpa [List.isEmpty_iff] using hd1
      have hdig : ∀ x ∈ cs.takeWhile Char.isDigit, x.isDigit = true :=
        fun x hx => List.mem_takeWhile_imp hx
      exact ⟨isNumToken_digits hne hdig, Or.inl ⟨hne, hdig⟩⟩

lemma tokenizeF_shape : ∀ (fuel : Nat), ∀ (cs t : List Char),
    t ∈ tokenizeF fuel cs →
    (isNumToken t = true ∧ NumTokenShape t) ∨
      ∃ c, t = [c] ∧ isOpPar c = true := by
  intro fuel
  induction fuel with
  | zero => intro cs t h; simp [tokenizeF] at h
  | succ n ih =>
    intro cs t h
    cases cs with
    | nil => simp [tokenizeF] at h
    | cons c cs' =>
      cases hmn : matchNum (c :: cs') with
      | some tr =>
        obtain ⟨tk, rest⟩ := tr
        simp only [tokenizeF, hmn] at h
        rcases List.mem_cons.mp h with rfl | h
        · exact Or.inl (matchNum_shape hmn)
        · exact ih rest t h
      | none =>
        simp only [tokenizeF, hmn] at h
        by_cases ho : isOpPar c = true
        · rw [if_pos ho] at h
          rcases List.mem_cons.mp h with rfl | h
          · exact Or.inr ⟨c, rfl, ho⟩
          · exact ih cs' t h
        · rw [if_neg ho] at h
          exact ih cs' t h

lemma tokenizeF_join_sublist : ∀ (fuel : Nat), ∀ cs : List Char,
    cs.length ≤ fuel → ((tokenizeF fuel cs).flatten).Sublist cs := by
  intro fuel
  induction fuel with
  | zero =>
    intro cs h
    obtain rfl : cs = [] := by
      cases cs with
      | nil => rfl
      | cons c cs' => simp at h
    simp [tokenizeF]
  | succ n ih =>
    intro cs hle
    cases cs with
    | nil => simp [tokenizeF]
    | cons c cs' =>
      have hm : cs'.length ≤ n := by simpa using hle
      cases hmn : matchNum (c :: cs') with
      | some tr =>
        obtain ⟨tk, rest⟩ := tr
        obtain ⟨hdec, hne⟩ := matchNum_some _ _ _ hmn
        have hlen : cs'.length + 1 = tk.length + rest.length := by
          have := congrArg List.length hdec
          simpa using this
        have htpos : 1 ≤ tk.length := List.length_pos.mpr hne
        simp only [tokenizeF, hmn, List.flatten_cons]
        rw [hdec]
        exact (ih rest (by omega)).append_left tk
      | none =>
        simp only [tokenizeF, hmn]
        by_cases ho : isOpPar c = true
        · rw [if_pos ho]
          simp only [List.flatten_cons, List.singleton_append]
          exact List.cons_sublist_cons.mpr (ih cs' hm)
        · rw [if_neg ho]
          exact (ih cs' hm).cons c

/-- C7 (amended): every token the scanner produces is either a number
token of shape `\d*\.?\d+` (zero or more digits, an optional decimal
point, then at least one digit — the token may begin with the decimal
point, see the counterexample) or a single operator/parenthesis
character; the concatenation of the produced tokens is a subsequence of
the input, so left-to-right order is preserved. -/
theorem token_shape (cs t : List Char) (h : t ∈ tokenize cs) :
    ((isNumToken t = true ∧ NumTokenShape t) ∨
        ∃ c, t = [c] ∧ isOpPar c = true)
    ∧ ((tokenize cs).flatten).Sublist cs :=
  ⟨tokenizeF_shape cs.length cs t h,
    tokenizeF_join_sublist cs.length cs le_rfl⟩

/-- Witness for the amended C7 on the input `"2+.5"`, at its token `".5"`. -/
theorem token_shape_witness :
    ((isNumToken ['.', '5'] = true ∧ NumTokenShape ['.', '5']) ∨
        ∃ c, ['.', '5'] = [c] ∧ isOpPar c = true)
    ∧ ((tokenize "2+.5".data).flatten).Sublist "2+.5".data :=
  token_shape "2+.5".data ['.', '5'] (by decide)

/-! ### Wellformedness of the RPN output, and engine/script equivalence -/


lemma OutWF_push_num {out : List RTok} (q : ℚ) (h : OutWF out) :
    OutWF (out ++ [RTok.num q]) := by
  intro c hc
  rcases List.mem_append.mp hc with hc | hc
  · exact h c hc
  · simp at hc

lemma OutWF_push_op {out : List RTok} {t : Char} (h : OutWF out)
    (ht : IsOp4 t) : OutWF (out ++ [RTok.op t]) := by
  intro c hc
  rcases List.mem_append.mp hc with hc | hc
  · exact h c hc
  · obtain rfl : c = t := by simpa using hc
    exact ht

lemma popOps_wf (c : Char) : ∀ (ops : List Char) (out : List RTok),
    OutWF out → OpsWF ops →
    OutWF (popOps c out ops).1 ∧ OpsWF (popOps c out ops).2 := by
  intro ops
  induction ops with
  | nil =>
    intro out ho hp
    exact ⟨ho, by intro t ht; cases ht⟩
  | cons t rest ih =>
    intro out ho hp
    unfold popOps
    split
    case isTrue h =>
      have ht4 : IsOp4 t := by
        rcases hp t (by simp) with h' | h'
        · exact absurd h' h.1
        · exact h'
      exact ih (out ++ [RTok.op t]) (OutWF_push_op ho ht4)
        (fun x hx => hp x (List.mem_cons_of_mem t hx))
    case isFalse h => exact ⟨ho, hp⟩

lemma popUntilParen_wf : ∀ (ops : List Char) (out : List RTok)
    {o' : List RTok} {p' : List Char}, OutWF out → OpsWF ops →
    popUntilParen out ops = .ok (o', p') → OutWF o' ∧ OpsWF p' := by
  intro ops
  induction ops with
  | nil => intro out o' p' _ _ h; simp [popUntilParen] at h
  | cons t rest ih =>
    intro out o' p' ho hp h
    unfold popUntilParen at h
    split at h
    case isTrue heq =>
      obtain ⟨rfl, rfl⟩ : out = o' ∧ rest = p' := by simpa using h
      exact ⟨ho, fun x hx => hp x (List.mem_cons_of_mem t hx)⟩
    case isFalse heq =>
      have ht4 : IsOp4 t := by
        rcases hp t (by simp) with h' | h'
        · exact absurd h' heq
        · exact h'
      exact ih (out ++ [RTok.op t]) (OutWF_push_op ho ht4)
        (fun x hx => hp x (List.mem_cons_of_mem t hx)) h

lemma drainOps_wf : ∀ (ops : List Char) (out : List RTok) {rpn : List RTok},
    OutWF out → OpsWF ops → drainOps out ops = .ok rpn → OutWF rpn := by
  intro ops
  induction ops with
  | nil =>
    intro out rpn ho _ h
    obtain rfl : out = rpn := by simpa [drainOps] using h
    exact ho
  | cons t rest ih =>
    intro out rpn ho hp h
    unfold drainOps at h
    split at h
    case isTrue heq => simp at h
    case isFalse heq =>
      have ht4 : IsOp4 t := by
        rcases hp t (by simp) with h' | h'
        · exact absurd h' heq
        · exact h'
      exact ih (out ++ [RTok.op t]) (OutWF_push_op ho ht4)
        (fun x hx => hp x (List.mem_cons_of_mem t hx)) h

lemma syRun_wf : ∀ (ts : List (List Char)) (out : List RTok)
    (ops : List Char) {out' : List RTok} {ops' : List Char},
    (∀ t ∈ ts, isNumToken t = true ∨ ∃ c, t = [c] ∧ isOpPar c = true) →
    OutWF out → OpsWF ops →
    syRun out ops ts = .ok (out', ops') → OutWF out' ∧ OpsWF ops' := by
  intro ts
  induction ts with
  | nil =>
    intro out ops out' ops' _ ho hp hrun
    obtain ⟨rfl, rfl⟩ : out = out' ∧ ops = ops' := by
      simpa [syRun] using hrun
    exact ⟨ho, hp⟩
  | cons t ts ih =>
    intro out ops out' ops' hts ho hp hrun
    have hts' : ∀ x ∈ ts,
        isNumToken x = true ∨ ∃ c, x = [c] ∧ isOpPar c = true :=
      fun x hx => hts x (List.mem_cons_of_mem t hx)
    simp only [syRun] at hrun
    split at hrun
    case isTrue hnum =>
      exact ih _ _ hts' (OutWF_push_num _ ho) hp hrun
    case isFalse hnum =>
      split at hrun
      case isTrue hlp =>
        refine ih _ _ hts' ho ?_ hrun
        intro x hx
        rcases List.mem_cons.mp hx with rfl | hx
        · exact Or.inl rfl
        · exact hp x hx
      case isFalse hlp =>
        split at hrun
        case isTrue hrp =>
          cases hpp : popUntilParen out ops with
          | error e => rw [hpp] at hrun; simp at hrun
          | ok pr =>
            obtain ⟨o2, p2⟩ := pr
            rw [hpp] at hrun
            have hw := popUntilParen_wf ops out ho hp hpp
            exact ih _ _ hts' hw.1 hw.2 hrun
        case isFalse hrp =>
          rcases hts t (by simp) with hnum' | ⟨c, rfl, hc⟩
          · rw [hnum'] at hnum; cases hnum rfl
          · have hrun' : syRun (popOps c out ops).1
                (c :: (popOps c out ops).2) ts = Except.ok (out', ops') := hrun
            rcases hpo : popOps c out ops with ⟨o2, p2⟩
            rw [hpo] at hrun'
            have hc4 : IsOp4 c := by
              rcases isOpPar_cases hc with rfl | rfl | rfl | rfl | rfl | rfl
              · exact Or.inl rfl
              · exact Or.inr (Or.inl rfl)
              · exact Or.inr (Or.inr (Or.inl rfl))
              · exact Or.inr (Or.inr (Or.inr rfl))
              · exact absurd rfl hlp
              · exact absurd rfl hrp
            have hw := popOps_wf c ops out ho hp
            rw [hpo] at hw
            refine ih _ _ hts' hw.1 ?_ hrun'
            intro x hx
            rcases List.mem_cons.mp hx with rfl | hx
            · exact Or.inr hc4
            · exact hw.2 x hx

lemma toRPN_wf {cs : List Char} {rpn : List RTok}
    (h : toRPN cs = .ok rpn) : ∀ c, RTok.op c ∈ rpn → IsOp4 c := by
  unfold toRPN at h
  cases hsy : syRun [] [] (tokenize cs) with
  | error e => rw [hsy] at h; simp at h
  | ok pr =>
    obtain ⟨out, ops⟩ := pr
    rw [hsy] at h
    simp only [] at h
    have hts : ∀ t ∈ tokenize cs,
        isNumToken t = true ∨ ∃ c, t = [c] ∧ isOpPar c = true := by
      intro t ht
      rcases tokenizeF_shape cs.length cs t ht with ⟨hn, _⟩ | hop
      · exact Or.inl hn
      · exact Or.inr hop
    have hw := syRun_wf (tokenize cs) [] [] hts
      (by intro c hc; simp at hc) (by intro t ht; cases ht) hsy
    exact drainOps_wf ops out hw.1 hw.2 h

lemma evalSteps_add (a b : ℚ) (stk : List ℚ) (rest : List RTok) :
    evalSteps (b :: a :: stk) (RTok.op '+' :: rest) =
      evalSteps ((a + b) :: stk) rest := rfl

lemma evalSteps_sub (a b : ℚ) (stk : List ℚ) (rest : List RTok) :
    evalSteps (b :: a :: stk) (RTok.op '-' :: rest) =
      evalSteps ((a - b) :: stk) rest := rfl

lemma evalSteps_mul (a b : ℚ) (stk : List ℚ) (rest : List RTok) :
    evalSteps (b :: a :: stk) (RTok.op '*' :: rest) =
      evalSteps ((a * b) :: stk) rest := rfl

lemma evalSteps_div (a b : ℚ) (stk : List ℚ) (rest : List RTok) :
    evalSteps (b :: a :: stk) (RTok.op '/' :: rest) =
      if b = 0 then .error CalcError.divisionByZero
      else evalSteps ((a / b) :: stk) rest := by
  by_cases hb : b = 0
  · subst hb
    rw [if_pos rfl]
    simp [evalSteps, applyOp_div_zero]
  · rw [if_neg hb]
    simp [evalSteps, applyOp_div _ hb]

lemma evalStepsScript_add (a b : ℚ) (stk : List ℚ) (rest : List RTok) :
    evalStepsScript (b :: a :: stk) (RTok.op '+' :: rest) =
      evalStepsScript ((a + b) :: stk) rest := rfl

lemma evalStepsScript_sub (a b : ℚ) (stk : List ℚ) (rest : List RTok) :
    evalStepsScript (b :: a :: stk) (RTok.op '-' :: rest) =
      evalStepsScript ((a - b) :: stk) rest := rfl

lemma evalStepsScript_mul (a b : ℚ) (stk : List ℚ) (rest : List RTok) :
    evalStepsScript (b :: a :: stk) (RTok.op '*' :: rest) =
      evalStepsScript ((a * b) :: stk) rest := rfl

lemma evalStepsScript_div (a b : ℚ) (stk : List ℚ) (rest : List RTok) :
    evalStepsScript (b :: a :: stk) (RTok.op '/' :: rest) =
      if b = 0 then .error CalcError.divisionByZero
      else evalStepsScript ((a / b) :: stk) rest := rfl

lemma evalSteps_eq_script : ∀ (rpn : List RTok) (stk : List ℚ),
    (∀ c, RTok.op c ∈ rpn → IsOp4 c) →
    evalSteps stk rpn = evalStepsScript stk rpn := by
  intro rpn
  induction rpn with
  | nil => intro stk _; rfl
  | cons t rest ih =>
    intro stk hwf
    have hwf' : ∀ c, RTok.op c ∈ rest → IsOp4 c :=
      fun c hc => hwf c (List.mem_cons_of_mem t hc)
    cases t with
    | num q =>
      show evalSteps (q :: stk) rest = evalStepsScript (q :: stk) rest
      exact ih _ hwf'
    | op c =>
      have hc4 : IsOp4 c := hwf c (by simp)
      cases stk with
      | nil => rfl
      | cons b s0 =>
        cases s0 with
        | nil => rfl
        | cons a stk' =>
          rcases hc4 with rfl | rfl | rfl | rfl
          · rw [evalSteps_add, evalStepsScript_add]
            exact ih _ hwf'
          · rw [evalSteps_sub, evalStepsScript_sub]
            exact ih _ hwf'
          · rw [evalSteps_mul, evalStepsScript_mul]
            exact ih _ hwf'
          · rw [evalSteps_div, evalStepsScript_div]
            by_cases hb : b = 0
            · rw [if_pos hb, if_pos hb]
            · rw [if_neg hb, if_neg hb]
              exact ih _ hwf'

lemma evaluateRPN_eq_script {rpn : List RTok}
    (hwf : ∀ c, RTok.op c ∈ rpn → IsOp4 c) :
    evaluateRPN rpn = Except.map formatResult
      (match evalStepsScript [] rpn with
       | .error e => .error e
       | .ok [r] => .ok r
       | .ok _ => .error CalcError.invalidExpression) := by
  unfold evaluateRPN
  rw [evalSteps_eq_script rpn [] hwf]
  cases evalStepsScript [] rpn with
  | error e => rfl
  | ok stk =>
    cases stk with
    | nil => rfl
    | cons r s0 =>
      cases s0 with
      | nil => rfl
      | cons x xs => rfl

/-- C8: the engine's `calculate` and the standalone `safeCalculate` of
`script.js` compute the same function once `calculateResult`'s result
formatting is applied to `safeCalculate`'s return value: on every input
they either produce the same number or fail with the same error kind. -/
theorem engine_script_equiv (s : String) :
    CalculatorEngine.calculate s = (safeCalculate s).map formatResult := by
  unfold CalculatorEngine.calculate safeCalculate calcChars safeCalcChars
  by_cases hv : validChars (stripWhitespace s.data) = true
  · rw [hv]
    simp only [Bool.not_true, Bool.false_eq_true, if_false]
    cases hrpn : toRPN (stripWhitespace s.data) with
    | error e => rfl
    | ok rpn => exact evaluateRPN_eq_script (toRPN_wf hrpn)
  · have hv' : validChars (stripWhitespace s.data) = false := by
      rcases h : validChars (stripWhitespace s.data)
      · rfl
      · exact absurd h hv
    rw [hv']
    rfl

/-! ### The standard infix grammar and correctness of the pipeline -/


lemma EBar_TBar {ops : List Char} (h : EBar ops) : TBar ops := by
  rcases h with rfl | ⟨rs, rfl⟩
  · exact Or.inl rfl
  · exact Or.inr (Or.inl ⟨rs, rfl⟩)

lemma PendT_PendE {p : List Char} (h : PendT p) : PendE p :=
  ⟨p, [], h, Or.inl rfl, by simp⟩

lemma PendT_mem {p : List Char} (h : PendT p) :
    ∀ t ∈ p, t = '*' ∨ t = '/' := by
  rcases h with rfl | rfl | rfl <;> intro t ht <;> simp at ht <;> simp [ht]

lemma PendE_mem {p : List Char} (h : PendE p) :
    ∀ t ∈ p, IsOp4 t := by
  obtain ⟨pm, pa, hm, ha, rfl⟩ := h
  intro t ht
  rcases List.mem_append.mp ht with ht | ht
  · rcases PendT_mem hm t ht with rfl | rfl
    · exact Or.inr (Or.inr (Or.inl rfl))
    · exact Or.inr (Or.inr (Or.inr rfl))
  · rcases ha with rfl | rfl | rfl
    · simp at ht
    · obtain rfl : t = '+' := by simpa using ht
      exact Or.inl rfl
    · obtain rfl : t = '-' := by simpa using ht
      exact Or.inr (Or.inl rfl)

lemma PendE_no_paren {p : List Char} (h : PendE p) : ∀ t ∈ p, t ≠ '(' := by
  intro t ht
  rcases PendE_mem h t ht with rfl | rfl | rfl | rfl <;> decide

lemma EBar_popStop (c : Char) {ops : List Char} (h : EBar ops) :
    PopStop c ops := by
  rcases h with rfl | ⟨rs, rfl⟩
  · exact Or.inl rfl
  · exact Or.inr ⟨'(', rs, rfl, Or.inl rfl⟩

lemma TBar_popStop {c : Char} {ops : List Char} (h : TBar ops)
    (hc : precedence c = 2) : PopStop c ops := by
  rcases h with rfl | ⟨rs, rfl⟩ | ⟨rs, rfl⟩ | ⟨rs, rfl⟩
  · exact Or.inl rfl
  · exact Or.inr ⟨'(', rs, rfl, Or.inl rfl⟩
  · exact Or.inr ⟨'+', rs, rfl, Or.inr (by rw [hc]; decide)⟩
  · exact Or.inr ⟨'-', rs, rfl, Or.inr (by rw [hc]; decide)⟩

lemma allowed_not_ws {c : Char} (h : isAllowedChar c = true) :
    isWsChar c = false := by
  rcases hw : isWsChar c
  · rfl
  · exfalso
    simp only [isWsChar, Bool.or_eq_true, beq_iff_eq] at hw
    rcases hw with ((rfl | rfl) | rfl) | rfl <;> simp [isAllowedChar] at h

lemma validExpr_chars {lv : Level} {cs : List Char} {v : ℚ}
    (h : ValidExpr lv cs v) :
    cs ≠ [] ∧ ∀ c ∈ cs, isAllowedChar c = true := by
  induction h with
  | lit hl =>
    obtain ⟨d1, d2, h1, hall1, hcase⟩ := hl
    rcases hcase with ⟨rfl, _⟩ | ⟨h2, hall2, rfl, _⟩
    · exact ⟨h1, fun c hc => isAllowedChar_of_digit (hall1 c hc)⟩
    · refine ⟨by simp, ?_⟩
      intro c hc
      rcases List.mem_append.mp hc with hc | hc
      · exact isAllowedChar_of_digit (hall1 c hc)
      · rcases List.mem_cons.mp hc with rfl | hc
        · decide
        · exact isAllowedChar_of_digit (hall2 c hc)
  | paren _ ih =>
    refine ⟨by simp, ?_⟩
    intro c hc
    rcases List.mem_cons.mp hc with rfl | hc
    · decide
    · rcases List.mem_append.mp hc with hc | hc
      · exact ih.2 c hc
      · obtain rfl : c = ')' := by simpa using hc
        decide
  | tf _ ih => exact ih
  | et _ ih => exact ih
  | mul _ _ ih1 ih2 =>
    refine ⟨by simp [ih1.1], ?_⟩
    intro c hc
    rcases List.mem_append.mp hc with hc | hc
    · exact ih1.2 c hc
    · rcases List.mem_cons.mp hc with rfl | hc
      · decide
      · exact ih2.2 c hc
  | div _ _ _ ih1 ih2 =>
    refine ⟨by simp [ih1.1], ?_⟩
    intro c hc
    rcases List.mem_append.mp hc with hc | hc
    · exact ih1.2 c hc
    · rcases List.mem_cons.mp hc with rfl | hc
      · decide
      · exact ih2.2 c hc
  | add _ _ ih1 ih2 =>
    refine ⟨by simp [ih1.1], ?_⟩
    intro c hc
    rcases List.mem_append.mp hc with hc | hc
    · exact ih1.2 c hc
    · rcases List.mem_cons.mp hc with rfl | hc
      · decide
      · exact ih2.2 c hc
  | sub _ _ ih1 ih2 =>
    refine ⟨by simp [ih1.1], ?_⟩
    intro c hc
    rcases List.mem_append.mp hc with hc | hc
    · exact ih1.2 c hc
    · rcases List.mem_cons.mp hc with rfl | hc
      · decide
      · exact ih2.2 c hc

lemma syRun_num_step {t : List Char} (out : List RTok) (ops : List Char)
    (ts : List (List Char)) (h : isNumToken t = true) :
    syRun out ops (t :: ts) =
      syRun (out ++ [RTok.num (parseNum t)]) ops ts := by
  simp [syRun, h]

lemma syRun_lparen_step (out : List RTok) (ops : List Char)
    (ts : List (List Char)) :
    syRun out ops (['('] :: ts) = syRun out ('(' :: ops) ts := by
  have hn : isNumToken ['('] = false := by decide
  simp [syRun, hn]

lemma syRun_rparen_step (out : List RTok) (ops : List Char)
    (ts : List (List Char)) :
    syRun out ops ([')'] :: ts) =
      match popUntilParen out ops with
      | .error e => .error e
      | .ok pr => syRun pr.1 pr.2 ts := by
  have hn : isNumToken [')'] = false := by decide
  simp [syRun, hn]

lemma syRun_op_step (c : Char) (out : List RTok) (ops : List Char)
    (ts : List (List Char)) (hn : isNumToken [c] = false)
    (hlp : c ≠ '(') (hrp : c ≠ ')') :
    syRun out ops ([c] :: ts) =
      syRun (popOps c out ops).1 (c :: (popOps c out ops).2) ts := by
  simp [syRun, hn, hlp, hrp]

lemma syRun_nil_tok_step (out : List RTok) (ops : List Char)
    (ts : List (List Char)) :
    syRun out ops ([] :: ts) = .error CalcError.invalidOperator := by
  have hn : isNumToken ([] : List Char) = false := by decide
  simp [syRun, hn]

lemma syRun_long_tok_step (c1 c2 : Char) (t'' : List Char)
    (out : List RTok) (ops : List Char) (ts : List (List Char))
    (hn : isNumToken (c1 :: c2 :: t'') = false) :
    syRun out ops ((c1 :: c2 :: t'') :: ts) =
      .error CalcError.invalidOperator := by
  simp [syRun, hn]

lemma syRun_app : ∀ (ts1 : List (List Char)) (out : List RTok)
    (ops : List Char) {out' : List RTok} {ops' : List Char}
    (ts2 : List (List Char)),
    syRun out ops ts1 = .ok (out', ops') →
    syRun out ops (ts1 ++ ts2) = syRun out' ops' ts2 := by
  intro ts1
  induction ts1 with
  | nil =>
    intro out ops out' ops' ts2 h
    obtain ⟨rfl, rfl⟩ : out = out' ∧ ops = ops' := by
      simpa [syRun] using h
    rfl
  | cons t ts1 ih =>
    intro out ops out' ops' ts2 h
    rw [List.cons_append]
    by_cases h1 : isNumToken t = true
    · rw [syRun_num_step _ _ _ h1] at h ⊢
      exact ih _ _ _ h
    · have h1' : isNumToken t = false := by
        rcases hb : isNumToken t
        · rfl
        · exact absurd hb h1
      by_cases h2 : t = ['(']
      · subst h2
        rw [syRun_lparen_step] at h ⊢
        exact ih _ _ _ h
      · by_cases h3 : t = [')']
        · subst h3
          rw [syRun_rparen_step] at h ⊢
          cases hpp : popUntilParen out ops with
          | error e => rw [hpp] at h; simp at h
          | ok pr =>
            rw [hpp] at h
            exact ih _ _ _ h
        · cases t with
          | nil => rw [syRun_nil_tok_step] at h; simp at h
          | cons c t' =>
            cases t' with
            | nil =>
              rw [syRun_op_step c _ _ _ h1' (by simpa using h2)
                (by simpa using h3)] at h ⊢
              exact ih _ _ _ h
            | cons c2 t'' =>
              rw [syRun_long_tok_step _ _ _ _ _ _ h1'] at h
              simp at h

lemma TkOK_binop {cs1 cs2 : List Char} {ts1 ts2 : List (List Char)}
    (c : Char) (hc : isOpPar c = true)
    (h1 : TkOK cs1 ts1) (h2 : TkOK cs2 ts2) :
    TkOK (cs1 ++ c :: cs2) (ts1 ++ [c] :: ts2) := by
  intro rest hrest
  have hassoc : (cs1 ++ c :: cs2) ++ rest = cs1 ++ (c :: (cs2 ++ rest)) := by
    simp
  rw [hassoc, h1 (c :: (cs2 ++ rest)) (Or.inr ⟨c, cs2 ++ rest, rfl, hc⟩),
    tokenize_cons_op
      (matchNum_cons_none _ (isOpPar_not_digit hc) (isOpPar_ne_dot hc)) hc,
    h2 rest hrest]
  simp

lemma EvOK_congr {r1 r2 : List RTok} {v : ℚ} (h : r1 = r2)
    (he : EvOK r1 v) : EvOK r2 v := h ▸ he

lemma EvOK_binop {r1 r2 : List RTok} {v1 v2 v : ℚ} (c : Char)
    (h1 : EvOK r1 v1) (h2 : EvOK r2 v2)
    (hop : ∀ (stk : List ℚ) (rest : List RTok),
      evalSteps (v2 :: v1 :: stk) (RTok.op c :: rest) =
        evalSteps (v :: stk) rest) :
    EvOK ((r1 ++ r2) ++ [RTok.op c]) v := by
  intro stk rest
  have hassoc : ((r1 ++ r2) ++ [RTok.op c]) ++ rest =
      r1 ++ (r2 ++ (RTok.op c :: rest)) := by simp
  rw [hassoc, h1, h2, hop]

lemma litStr_numToken {cs : List Char} {v : ℚ} (hl : LitStr cs v) :
    isNumToken cs = true ∧ parseNum cs = v := by
  obtain ⟨d1, d2, h1, hall1, hcase⟩ := hl
  rcases hcase with ⟨rfl, rfl⟩ | ⟨h2, hall2, rfl, rfl⟩
  · exact ⟨isNumToken_digits h1 hall1, parseNum_digits hall1⟩
  · exact ⟨isNumToken_digits_dot h2 hall1 hall2,
      parseNum_digits_dot hall1 hall2⟩

lemma TkOK_lit {cs : List Char} {v : ℚ} (hl : LitStr cs v) :
    TkOK cs [cs] := by
  intro rest hrest
  obtain ⟨d1, d2, h1, hall1, hcase⟩ := hl
  have hrest' : ∀ c, rest.head? = some c → c.isDigit = false ∧ c ≠ '.' := by
    intro c hc
    rcases hrest with rfl | ⟨c', rs, rfl, hc'⟩
    · simp at hc
    · obtain rfl : c' = c := by simpa using hc
      exact ⟨isOpPar_not_digit hc', isOpPar_ne_dot hc'⟩
  rcases hcase with ⟨rfl, _⟩ | ⟨h2, hall2, rfl, _⟩
  · have hmn : matchNum (cs ++ rest) = some (cs, rest) :=
      matchNum_digits h1 hall1 hrest'
    obtain ⟨d0, d1', rfl⟩ : ∃ d0 d1', cs = d0 :: d1' := by
      cases cs with
      | nil => exact absurd rfl h1
      | cons a b => exact ⟨a, b, rfl⟩
    exact tokenize_cons_num hmn
  · have hmn := matchNum_digits_dot h2 hall1 hall2
      (fun c hc => (hrest' c hc).1)
    obtain ⟨d0, d1', rfl⟩ : ∃ d0 d1', d1 = d0 :: d1' := by
      cases d1 with
      | nil => exact absurd rfl h1
      | cons a b => exact ⟨a, b, rfl⟩
    exact tokenize_cons_num hmn

lemma litStr_chars {cs : List Char} {v : ℚ} (hl : LitStr cs v) :
    cs ≠ [] ∧ ∀ c ∈ cs, isAllowedChar c = true := by
  obtain ⟨d1, d2, h1, hall1, hcase⟩ := hl
  rcases hcase with ⟨rfl, _⟩ | ⟨h2, hall2, rfl, _⟩
  · exact ⟨h1, fun c hc => isAllowedChar_of_digit (hall1 c hc)⟩
  · refine ⟨by simp, ?_⟩
    intro c hc
    rcases List.mem_append.mp hc with hc | hc
    · exact isAllowedChar_of_digit (hall1 c hc)
    · rcases List.mem_cons.mp hc with rfl | hc
      · decide
      · exact isAllowedChar_of_digit (hall2 c hc)

/-- C10 (amended): an input consisting of a single leading operator
followed by one number literal (digits with an optional decimal point,
`LitStr`) is not a signed literal: it fails with `InvalidExpression` by
stack underflow, so negative number literals cannot be written directly;
in particular `evaluate("-5") = Err(InvalidExpression)` and
`evaluate("-5.5") = Err(InvalidExpression)`.  (The blanket version of the
claim — every operator-led input fails — is false: see the counterexample
`"+2(2)"`.) -/
theorem leading_op_single_number (c : Char) (ds : List Char) (v : ℚ)
    (hc : c = '+' ∨ c = '-' ∨ c = '*' ∨ c = '/') (hl : LitStr ds v) :
    calcChars (c :: ds) = .error CalcError.invalidExpression
    ∧ CalculatorEngine.calculate "-5" = .error CalcError.invalidExpression
    ∧ CalculatorEngine.calculate "-5.5" = .error CalcError.invalidExpression
    := by
  refine ⟨?_, by decide, by decide⟩
  have hop : isOpPar c = true := by
    rcases hc with rfl | rfl | rfl | rfl <;> decide
  have hdig : c.isDigit = false := isOpPar_not_digit hop
  have hdot : c ≠ '.' := isOpPar_ne_dot hop
  have hlp : c ≠ '(' := by rcases hc with rfl | rfl | rfl | rfl <;> decide
  have hrp : c ≠ ')' := by rcases hc with rfl | rfl | rfl | rfl <;> decide
  have hws : isWsChar c = false := by
    rcases hc with rfl | rfl | rfl | rfl <;> decide
  have hallow : isAllowedChar c = true := by
    rcases hc with rfl | rfl | rfl | rfl <;> decide
  have hdsch := litStr_chars hl
  have hstrip : stripWhitespace (c :: ds) = c :: ds := by
    unfold stripWhitespace
    rw [List.filter_eq_self]
    intro a ha
    rcases List.mem_cons.mp ha with rfl | ha
    · simp [hws]
    · simp [allowed_not_ws (hdsch.2 a ha)]
  have hval : validChars (c :: ds) = true := by
    unfold validChars
    simp only [List.isEmpty_cons, Bool.not_false, Bool.true_and]
    rw [List.all_eq_true]
    intro x hx
    rcases List.mem_cons.mp hx with rfl | hx
    · exact hallow
    · exact hdsch.2 x hx
  have hmn : matchNum (c :: ds) = none := matchNum_cons_none _ hdig hdot
  have htokds : tokenize ds = [ds] := by
    have h0 := TkOK_lit hl [] (Or.inl rfl)
    simpa [tokenize_nil] using h0
  have htok : tokenize (c :: ds) = [c] :: [ds] := by
    rw [tokenize_cons_op hmn hop, htokds]
  have hnum1 : isNumToken [c] = false := isNumToken_single_op hop
  have hnum2 : isNumToken ds = true := (litStr_numToken hl).1
  have hsy : syRun [] [] ([c] :: [ds]) =
      .ok ([RTok.num (parseNum ds)], [c]) := by
    simp [syRun, hnum1, hnum2, hlp, hrp, popOps]
  have hdrain : drainOps [RTok.num (parseNum ds)] [c] =
      .ok [RTok.num (parseNum ds), RTok.op c] := by
    have h := drainOps_no_paren [RTok.num (parseNum ds)] [c]
      (by intro t ht; rcases List.mem_singleton.mp ht with rfl; exact hlp)
    simpa using h
  unfold calcChars toRPN
  rw [hstrip, hval, htok, hsy]
  simp only [Bool.not_true, Bool.false_eq_true, if_false]
  rw [hdrain]
  simp [evaluateRPN, evalSteps]

/-- Witness for the amended C10 at `"-5.5"` (operator `-`, decimal
literal `5.5`). -/
theorem leading_op_single_number_witness :
    calcChars ('-' :: ['5', '.', '5']) = .error CalcError.invalidExpression
    ∧ CalculatorEngine.calculate "-5" = .error CalcError.invalidExpression
    ∧ CalculatorEngine.calculate "-5.5" = .error CalcError.invalidExpression
    :=
  leading_op_single_number '-' ['5', '.', '5'] (5 + 5 / 10) (by decide)
    ⟨['5'], ['5'], by decide, by decide,
      Or.inr ⟨by decide, by decide, rfl, by decide⟩⟩

theorem validExpr_sy {lv : Level} {cs : List Char} {v : ℚ}
    (h : ValidExpr lv cs v) : SyGoal lv cs v := by
  induction h with
  | @lit cs v hl =>
    obtain ⟨hnum, hpn⟩ := litStr_numToken hl
    refine ⟨[cs], [RTok.num v], TkOK_lit hl, ?_, ?_⟩
    · intro stk rest; rfl
    · intro out ops
      rw [syRun_num_step _ _ _ hnum, hpn]
      simp [syRun]
  | @paren cs v _ ih =>
    obtain ⟨ts, o, p, htk, hpend, hev, hsy⟩ := ih
    refine ⟨['('] :: ts ++ [[')']], o ++ p.map RTok.op, ?_, hev, ?_⟩
    · intro rest hrest
      have hassoc : (('(' :: cs) ++ [')']) ++ rest =
          '(' :: (cs ++ (')' :: rest)) := by simp
      rw [hassoc,
        tokenize_cons_op (matchNum_cons_none _ (by decide) (by decide))
          (by decide),
        htk (')' :: rest) (Or.inr ⟨')', rest, rfl, by decide⟩),
        tokenize_cons_op (matchNum_cons_none _ (by decide) (by decide))
          (by decide)]
      simp
    · intro out ops
      rw [List.cons_append, syRun_lparen_step,
        syRun_app ts out ('(' :: ops) [[')']]
          (hsy out ('(' :: ops) (Or.inr ⟨ops, rfl⟩)),
        syRun_rparen_step,
        popUntilParen_flush (out ++ o) p ops (PendE_no_paren hpend)]
      simp [syRun, List.append_assoc]
  | @tf cs v _ ih =>
    obtain ⟨ts, r, htk, hev, hsy⟩ := ih
    refine ⟨ts, r, [], htk, Or.inl rfl, EvOK_congr (by simp) hev, ?_⟩
    intro out ops _
    rw [hsy out ops]
    simp
  | @mul cs1 v1 cs2 v2 _ _ ih1 ih2 =>
    obtain ⟨ts1, o1, p1, htk1, hp1, hev1, hsy1⟩ := ih1
    obtain ⟨ts2, r2, htk2, hev2, hsy2⟩ := ih2
    have hfacts : ∀ t ∈ p1, t ≠ '(' ∧ precedence '*' ≤ precedence t := by
      intro t ht
      rcases PendT_mem hp1 t ht with rfl | rfl <;> exact ⟨by decide, by decide⟩
    refine ⟨ts1 ++ ['*'] :: ts2, o1 ++ p1.map RTok.op ++ r2, ['*'],
      TkOK_binop '*' (by decide) htk1 htk2, Or.inr (Or.inl rfl), ?_, ?_⟩
    · refine EvOK_congr ?_
        (EvOK_binop '*' hev1 hev2 (fun stk rest => evalSteps_mul v1 v2 stk rest))
      simp
    · intro out ops hbar
      rw [syRun_app ts1 out ops (['*'] :: ts2) (hsy1 out ops hbar),
        syRun_op_step '*' _ _ _ (by decide) (by decide) (by decide)]
      have hflush : popOps '*' (out ++ o1) (p1 ++ ops) =
          (out ++ o1 ++ p1.map RTok.op, ops) :=
        popOps_flush (out ++ o1) p1 ops hfacts (TBar_popStop hbar (by decide))
      have hfst : (popOps '*' (out ++ o1) (p1 ++ ops)).1 =
          out ++ o1 ++ p1.map RTok.op := by rw [hflush]
      have hsnd : (popOps '*' (out ++ o1) (p1 ++ ops)).2 = ops := by
        rw [hflush]
      rw [hfst, hsnd, hsy2 (out ++ o1 ++ p1.map RTok.op) ('*' :: ops)]
      simp
  | @div cs1 v1 cs2 v2 _ _ hv2 ih1 ih2 =>
    obtain ⟨ts1, o1, p1, htk1, hp1, hev1, hsy1⟩ := ih1
    obtain ⟨ts2, r2, htk2, hev2, hsy2⟩ := ih2
    have hfacts : ∀ t ∈ p1, t ≠ '(' ∧ precedence '/' ≤ precedence t := by
      intro t ht
      rcases PendT_mem hp1 t ht with rfl | rfl <;> exact ⟨by decide, by decide⟩
    refine ⟨ts1 ++ ['/'] :: ts2, o1 ++ p1.map RTok.op ++ r2, ['/'],
      TkOK_binop '/' (by decide) htk1 htk2, Or.inr (Or.inr rfl), ?_, ?_⟩
    · refine EvOK_congr ?_
        (EvOK_binop '/' hev1 hev2
          (fun stk rest => by rw [evalSteps_div, if_neg hv2]))
      simp
    · intro out ops hbar
      rw [syRun_app ts1 out ops (['/'] :: ts2) (hsy1 out ops hbar),
        syRun_op_step '/' _ _ _ (by decide) (by decide) (by decide)]
      have hflush : popOps '/' (out ++ o1) (p1 ++ ops) =
          (out ++ o1 ++ p1.map RTok.op, ops) :=
        popOps_flush (out ++ o1) p1 ops hfacts (TBar_popStop hbar (by decide))
      have hfst : (popOps '/' (out ++ o1) (p1 ++ ops)).1 =
          out ++ o1 ++ p1.map RTok.op := by rw [hflush]
      have hsnd : (popOps '/' (out ++ o1) (p1 ++ ops)).2 = ops := by
        rw [hflush]
      rw [hfst, hsnd, hsy2 (out ++ o1 ++ p1.map RTok.op) ('/' :: ops)]
      simp
  | @et cs v _ ih =>
    obtain ⟨ts, o, p, htk, hpend, hev, hsy⟩ := ih
    exact ⟨ts, o, p, htk, PendT_PendE hpend, hev,
      fun out ops hbar => hsy out ops (EBar_TBar hbar)⟩
  | @add cs1 v1 cs2 v2 _ _ ih1 ih2 =>
    obtain ⟨ts1, o1, p1, htk1, hp1, hev1, hsy1⟩ := ih1
    obtain ⟨ts2, o2, p2, htk2, hp2, hev2, hsy2⟩ := ih2
    have hfacts : ∀ t ∈ p1, t ≠ '(' ∧ precedence '+' ≤ precedence t := by
      intro t ht
      rcases PendE_mem hp1 t ht with rfl | rfl | rfl | rfl <;>
        exact ⟨by decide, by decide⟩
    refine ⟨ts1 ++ ['+'] :: ts2, o1 ++ p1.map RTok.op ++ o2, p2 ++ ['+'],
      TkOK_binop '+' (by decide) htk1 htk2,
      ⟨p2, ['+'], hp2, Or.inr (Or.inl rfl), rfl⟩, ?_, ?_⟩
    · refine EvOK_congr ?_
        (EvOK_binop '+' hev1 hev2 (fun stk rest => evalSteps_add v1 v2 stk rest))
      simp
    · intro out ops hbar
      rw [syRun_app ts1 out ops (['+'] :: ts2) (hsy1 out ops hbar),
        syRun_op_step '+' _ _ _ (by decide) (by decide) (by decide)]
      have hflush : popOps '+' (out ++ o1) (p1 ++ ops) =
          (out ++ o1 ++ p1.map RTok.op, ops) :=
        popOps_flush (out ++ o1) p1 ops hfacts (EBar_popStop '+' hbar)
      have hfst : (popOps '+' (out ++ o1) (p1 ++ ops)).1 =
          out ++ o1 ++ p1.map RTok.op := by rw [hflush]
      have hsnd : (popOps '+' (out ++ o1) (p1 ++ ops)).2 = ops := by
        rw [hflush]
      rw [hfst, hsnd,
        hsy2 (out ++ o1 ++ p1.map RTok.op) ('+' :: ops)
          (Or.inr (Or.inr (Or.inl ⟨ops, rfl⟩)))]
      simp
  | @sub cs1 v1 cs2 v2 _ _ ih1 ih2 =>
    obtain ⟨ts1, o1, p1, htk1, hp1, hev1, hsy1⟩ := ih1
    obtain ⟨ts2, o2, p2, htk2, hp2, hev2, hsy2⟩ := ih2
    have hfacts : ∀ t ∈ p1, t ≠ '(' ∧ precedence '-' ≤ precedence t := by
      intro t ht
      rcases PendE_mem hp1 t ht with rfl | rfl | rfl | rfl <;>
        exact ⟨by decide, by decide⟩
    refine ⟨ts1 ++ ['-'] :: ts2, o1 ++ p1.map RTok.op ++ o2, p2 ++ ['-'],
      TkOK_binop '-' (by decide) htk1 htk2,
      ⟨p2, ['-'], hp2, Or.inr (Or.inr rfl), rfl⟩, ?_, ?_⟩
    · refine EvOK_congr ?_
        (EvOK_binop '-' hev1 hev2 (fun stk rest => evalSteps_sub v1 v2 stk rest))
      simp
    · intro out ops hbar
      rw [syRun_app ts1 out ops (['-'] :: ts2) (hsy1 out ops hbar),
        syRun_op_step '-' _ _ _ (by decide) (by decide) (by decide)]
      have hflush : popOps '-' (out ++ o1) (p1 ++ ops) =
          (out ++ o1 ++ p1.map RTok.op, ops) :=
        popOps_flush (out ++ o1) p1 ops hfacts (EBar_popStop '-' hbar)
      have hfst : (popOps '-' (out ++ o1) (p1 ++ ops)).1 =
          out ++ o1 ++ p1.map RTok.op := by rw [hflush]
      have hsnd : (popOps '-' (out ++ o1) (p1 ++ ops)).2 = ops := by
        rw [hflush]
      rw [hfst, hsnd,
        hsy2 (out ++ o1 ++ p1.map RTok.op) ('-' :: ops)
          (Or.inr (Or.inr (Or.inr ⟨ops, rfl⟩)))]
      simp

/-- C1 (amended): on every input string that is a valid infix expression
over non-negative decimal literals, `+ - * /` and balanced parentheses
(grammar `ValidExpr`, which encodes standard precedence and left-to-right
grouping for equal precedence, and whose value is the exact rational value
of the expression), `calculate` returns `Ok` with that value after the
engine's result normalization — which is the value itself whenever it is
an integer or has at most 8 fractional digits; in particular
`evaluate("2+2*3") = Ok(8)` and `evaluate("8-3-2") = Ok(3)`. -/
theorem evaluate_valid_expr (s : String) (v : ℚ)
    (h : ValidExpr .e s.data v) :
    CalculatorEngine.calculate s = .ok (formatResult v) := by
  obtain ⟨ts, o, p, htk, hpend, hev, hsy⟩ := validExpr_sy h
  have hchars := validExpr_chars h
  have hstrip : stripWhitespace s.data = s.data := by
    unfold stripWhitespace
    rw [List.filter_eq_self]
    intro a ha
    simp [allowed_not_ws (hchars.2 a ha)]
  have hval : validChars s.data = true := by
    unfold validChars
    have h1 : s.data.isEmpty = false := by
      rcases hh : s.data.isEmpty
      · rfl
      · exact absurd (List.isEmpty_iff.mp hh) hchars.1
    have h2 : s.data.all isAllowedChar = true := List.all_eq_true.mpr hchars.2
    rw [h1, h2]
    rfl
  have htok : tokenize s.data = ts := by
    have h0 := htk [] (Or.inl rfl)
    simpa [tokenize_nil] using h0
  have hrun : syRun [] [] ts = .ok (o, p) := by
    simpa using hsy [] [] (Or.inl rfl)
  have heval : evalSteps [] (o ++ p.map RTok.op) = .ok [v] := by
    have h0 := hev [] []
    simpa [evalSteps] using h0
  have hrpn : toRPN s.data = .ok (o ++ p.map RTok.op) := by
    unfold toRPN
    rw [htok, hrun]
    exact drainOps_no_paren o p (PendE_no_paren hpend)
  unfold CalculatorEngine.calculate calcChars
  rw [hstrip, hval, hrpn]
  simp only [Bool.not_true, Bool.false_eq_true, if_false]
  show evaluateRPN (o ++ p.map RTok.op) = .ok (formatResult v)
  unfold evaluateRPN
  rw [heval]

/-- Witness for C1: the two examples of the claim, derived by applying
the theorem to explicit grammar derivations of `"2+2*3"` and
`"8-3-2"`. -/
theorem evaluate_valid_expr_witness :
    CalculatorEngine.calculate "2+2*3" = .ok 8
    ∧ CalculatorEngine.calculate "8-3-2" = .ok 3 := by
  have l2 : LitStr ['2'] 2 :=
    ⟨['2'], [], by decide, by decide, Or.inl ⟨rfl, by decide⟩⟩
  have l3 : LitStr ['3'] 3 :=
    ⟨['3'], [], by decide, by decide, Or.inl ⟨rfl, by decide⟩⟩
  have l8 : LitStr ['8'] 8 :=
    ⟨['8'], [], by decide, by decide, Or.inl ⟨rfl, by decide⟩⟩
  have d1 : ValidExpr .e "2+2*3".data (2 + 2 * 3) :=
    ValidExpr.add (ValidExpr.et (ValidExpr.tf (ValidExpr.lit l2)))
      (ValidExpr.mul (ValidExpr.tf (ValidExpr.lit l2)) (ValidExpr.lit l3))
  have d2 : ValidExpr .e "8-3-2".data (8 - 3 - 2) :=
    ValidExpr.sub
      (ValidExpr.sub (ValidExpr.et (ValidExpr.tf (ValidExpr.lit l8)))
        (ValidExpr.tf (ValidExpr.lit l3)))
      (ValidExpr.tf (ValidExpr.lit l2))
  have h1 := evaluate_valid_expr "2+2*3" (2 + 2 * 3) d1
  have h2 := evaluate_valid_expr "8-3-2" (8 - 3 - 2) d2
  have e1 : formatResult (2 + 2 * 3 : ℚ) = 8 := by decide
  have e2 : formatResult (8 - 3 - 2 : ℚ) = 3 := by decide
  rw [e1] at h1
  rw [e2] at h2
  exact ⟨h1, h2⟩

/-- Counterexample to C1 as stated: `"1/3"` is a valid infix expression
with exact value `1/3`, but `calculate` returns `Ok(0.33333333)` (the
value rounded to 8 fractional digits by the result normalization), not
`Ok` of the expression's value. -/
theorem evaluate_valid_expr_cex :
    ValidExpr .e "1/3".data (1 / 3)
    ∧ CalculatorEngine.calculate "1/3" = .ok (33333333 / 100000000)
    ∧ (33333333 / 100000000 : ℚ) ≠ 1 / 3 := by
  have l1 : LitStr ['1'] 1 :=
    ⟨['1'], [], by decide, by decide, Or.inl ⟨rfl, by decide⟩⟩
  have l3 : LitStr ['3'] 3 :=
    ⟨['3'], [], by decide, by decide, Or.inl ⟨rfl, by decide⟩⟩
  refine ⟨?_, by decide, by decide⟩
  exact ValidExpr.et
    (ValidExpr.div (ValidExpr.tf (ValidExpr.lit l1)) (ValidExpr.lit l3)
      (by norm_num))

lemma formatResult_den (q : ℚ) : (formatResult q * 10 ^ 8).den = 1 := by
  unfold formatResult
  split
  case isTrue h =>
    have hq : ((q.num : ℚ)) = q := by
      conv_rhs => rw [← Rat.num_div_den q]
      rw [h]
      simp
    rw [← hq]
    have hc : ((q.num : ℚ)) * 10 ^ 8 = ((q.num * 10 ^ 8 : ℤ) : ℚ) := by
      push_cast
      ring
    rw [hc, Rat.den_intCast]
  case isFalse h =>
    unfold roundTo8
    rw [div_mul_cancel₀ _ (by norm_num : (10 : ℚ) ^ 8 ≠ 0),
      Rat.den_intCast]

/-- C2: whatever `evaluateRPN` computes as the raw stack value `q`, the
returned result is `q` itself when `q` is a mathematical integer and
otherwise `q` rounded to 8 fractional digits; either way the returned
value has at most 8 fractional digits; in particular
`evaluate("0.1+0.2") = Ok(0.3)` (`3/10` in the exact rational model —
binary floating-point artifacts do not arise in it). -/
theorem result_normalized (rpn : List RTok) (q : ℚ)
    (h : evalSteps [] rpn = .ok [q]) :
    evaluateRPN rpn = .ok (if q.den = 1 then q else roundTo8 q)
    ∧ ((if q.den = 1 then q else roundTo8 q) * 10 ^ 8).den = 1
    ∧ CalculatorEngine.calculate "0.1+0.2" = .ok (3 / 10) := by
  refine ⟨?_, formatResult_den q, by decide⟩
  unfold evaluateRPN
  rw [h]
  rfl

/-- Witness for C2 at the RPN program that pushes `3/10`. -/
theorem result_normalized_witness :
    evalSteps [] [RTok.num (3 / 10)] = .ok [3 / 10]
    ∧ (evaluateRPN [RTok.num (3 / 10)] =
          .ok (if (3 / 10 : ℚ).den = 1 then (3 / 10 : ℚ)
               else roundTo8 (3 / 10))
        ∧ ((if (3 / 10 : ℚ).den = 1 then (3 / 10 : ℚ)
            else roundTo8 (3 / 10)) * 10 ^ 8).den = 1
        ∧ CalculatorEngine.calculate "0.1+0.2" = .ok (3 / 10)) :=
  ⟨by decide, result_normalized [RTok.num (3 / 10)] (3 / 10) (by decide)⟩
